import Mathlib

/-!
Verification of the Antigravity provider core of the unify-chat-provider
extension, against its natural-language specification.

The development shallowly embeds the relevant TypeScript sources:

* the SSE frame parser (`parseSseStream`);
* the tool-schema cache and tool-name sanitization
  (`sanitizeToolNameForGemini` / `resolveOriginalToolName`);
* the thought-signature cache (`cacheThoughtSignature` /
  `getCachedThoughtSignature`);
* the thinking-config builder of the Antigravity client
  (`buildThinkingConfigForAntigravity`, `mapThinkingEffortToLevelString`);
* the endpoint-fallback loop of `streamChat`;
* tool-call argument normalization (`normalizeToolCallArgs`,
  `processEscapeSequencesOnly`, `recursivelyParseJsonStrings`), together
  with a model of the JavaScript `JSON.parse` they rely on.

JavaScript strings are modelled as `List Char` (`Chars`); byte streams are
modelled at the character level (the source decodes bytes with a streaming
UTF-8 `TextDecoder`, so byte-level chunk boundaries are invisible at the
character level).  Built-in JavaScript functions used by the sources
(`JSON.parse`, `String.prototype.trim`, `Number`, `Array.prototype.join`,
`String.prototype.split`) are modelled explicitly below, following the
ECMAScript / JSON grammars.
-/

abbrev Chars := List Char

/-! ## Generic string helpers (models of JS built-ins) -/

/-- The ECMAScript white-space and line-terminator set used by
`String.prototype.trim`. -/
def jsWhitespaceChar (c : Char) : Bool :=
  let n := c.toNat
  (9 ≤ n && n ≤ 13) || n = 32 || n = 160 || n = 0x1680 ||
  (0x2000 ≤ n && n ≤ 0x200A) || n = 0x2028 || n = 0x2029 ||
  n = 0x202F || n = 0x205F || n = 0x3000 || n = 0xFEFF

/-- Model of `String.prototype.trim`. -/
def jsTrim (cs : Chars) : Chars :=
  ((cs.dropWhile jsWhitespaceChar).reverse.dropWhile jsWhitespaceChar).reverse

theorem dropWhile_len_le (p : Char → Bool) : ∀ cs : Chars, (cs.dropWhile p).length ≤ cs.length := by
  intro cs
  induction cs with
  | nil => simp
  | cons c rest ih =>
      by_cases h : p c <;> simp [List.dropWhile_cons, h] <;> omega

theorem jsTrim_length_le (cs : Chars) : (jsTrim cs).length ≤ cs.length := by
  unfold jsTrim
  calc ((cs.dropWhile jsWhitespaceChar).reverse.dropWhile jsWhitespaceChar).reverse.length
      = ((cs.dropWhile jsWhitespaceChar).reverse.dropWhile jsWhitespaceChar).length := by
        rw [List.length_reverse]
    _ ≤ (cs.dropWhile jsWhitespaceChar).reverse.length := dropWhile_len_le _ _
    _ = (cs.dropWhile jsWhitespaceChar).length := by rw [List.length_reverse]
    _ ≤ cs.length := dropWhile_len_le _ _

/-- `String.prototype.trim` on Lean strings (used by the caches that key by
trimmed text). -/
def jsTrimString (s : String) : String := String.mk (jsTrim s.data)

/-- Does `needle` occur as a contiguous substring of `hay`?  Model of
`String.prototype.includes`. -/
def hasSubstr (hay needle : Chars) : Bool :=
  match hay with
  | [] => needle.isEmpty
  | _ :: t => needle.isPrefixOf hay || hasSubstr t needle

/-- Index of the last occurrence of `c`, model of
`String.prototype.lastIndexOf` (restricted to one-character needles). -/
def lastIdxOf (cs : Chars) (c : Char) : Option Nat :=
  match cs with
  | [] => none
  | c0 :: rest =>
      match lastIdxOf rest c with
      | some i => some (i + 1)
      | none => if c0 = c then some 0 else none

/-- Model of `value.split(sep).join(repl)` for the one case the source uses:
replacing every `"` by `\"`. -/
def escapeQuotes : Chars → Chars
  | [] => []
  | c :: rest => if c = '"' then '\\' :: '"' :: escapeQuotes rest else c :: escapeQuotes rest

/-- Model of `Array.prototype.join` over a separator string. -/
def joinWith (sep : Chars) : List Chars → Chars
  | [] => []
  | [l] => l
  | l :: l2 :: ls => l ++ sep ++ joinWith sep (l2 :: ls)

def isDig (c : Char) : Bool := '0' ≤ c && c ≤ '9'

/-! ## Model of the JavaScript `Number(string)` conversion (finiteness only)

The SSE parser stores a `retry` field only when `Number(value)` is finite
and not `NaN`.  We model exactly that predicate, following the
`StringNumericLiteral` grammar of ECMAScript: surrounding white space is
ignored, the empty remainder denotes `0` (finite), `Infinity` (optionally
signed) is non-finite, a signed decimal literal or an unsigned
binary/octal/hex integer literal is finite, and anything else is `NaN`. -/

def takeDigs : Chars → Chars × Chars
  | [] => ([], [])
  | c :: rest =>
      if isDig c then
        let p := takeDigs rest
        (c :: p.1, p.2)
      else ([], c :: rest)

def isHexDig (c : Char) : Bool :=
  isDig c || ('a' ≤ c && c ≤ 'f') || ('A' ≤ c && c ≤ 'F')

/-- Recognizer for an unsigned ECMAScript decimal literal
(`Digits ('.' Digits?)? Exponent? | '.' Digits Exponent?`). -/
def jsDecimalTail (cs : Chars) : Bool :=
  let (intDs, r1) := takeDigs cs
  let (fracDs, r2) :=
    match r1 with
    | '.' :: rr => takeDigs rr
    | _ => ([], r1)
  if intDs.isEmpty && fracDs.isEmpty && r1 ≠ r2 then false
  else if intDs.isEmpty && (match r1 with | '.' :: _ => false | _ => true) then false
  else
    match r2 with
    | [] => true
    | e :: rr =>
        if e = 'e' || e = 'E' then
          let r3 := match rr with
            | '+' :: r => r
            | '-' :: r => r
            | _ => rr
          let (expDs, r4) := takeDigs r3
          !expDs.isEmpty && r4.isEmpty
        else false

/-- Recognizer for the non-decimal (`0x` / `0o` / `0b`) integer literals of
`Number(string)`. -/
def jsRadixLiteral (cs : Chars) : Bool :=
  match cs with
  | '0' :: x :: rest =>
      if x = 'x' || x = 'X' then !rest.isEmpty && rest.all isHexDig
      else if x = 'o' || x = 'O' then !rest.isEmpty && rest.all (fun c => '0' ≤ c && c ≤ '7')
      else if x = 'b' || x = 'B' then !rest.isEmpty && rest.all (fun c => c = '0' || c = '1')
      else false
  | _ => false

/-- Is `Number(cs)` a finite number (not `NaN`, not `±Infinity`)? -/
def isFiniteJsNumber (cs : Chars) : Bool :=
  let t := jsTrim cs
  if t.isEmpty then true
  else if jsRadixLiteral t then true
  else
    let t1 := match t with
      | '+' :: r => r
      | '-' :: r => r
      | _ => t
    if t1 = "Infinity".data then false
    else jsDecimalTail t1

/-! ## SSE frame parser

Embedding of `parseSseStream` (src: `antigravity/sse.ts`).  The source
accumulates decoded chunks in a string buffer, repeatedly splits off the
prefix before the first occurrence of `"\n\n"` as one frame, parses the
frame's lines (split on `/\r?\n/`), and yields an event unless the joined
`data` value is empty.  Whatever remains in the buffer when the byte stream
ends is dropped. -/

structure SseEvent where
  data : Chars
  event : Option Chars
  id : Option Chars
  /-- The raw text of the last accepted `retry` field; the source stores
  `Number(value)` and accepts it only when finite, which preserves exactly
  this information. -/
  retry : Option Chars
deriving DecidableEq, Repr

/-- One step of the frame splitter: prepend a character that is not part of
a frame boundary. -/
def consFrame (c : Char) (p : List Chars × Chars) : List Chars × Chars :=
  match p with
  | ([], r) => ([], c :: r)
  | (f :: fs, r) => ((c :: f) :: fs, r)

/-- Split a buffer into the list of complete frames (the segments before
each successive first occurrence of `"\n\n"`, exactly as the source's
`buffer.indexOf('\n\n')` loop does) and the remaining buffer. -/
def splitFrames : Chars → List Chars × Chars
  | [] => ([], [])
  | [c] => ([], [c])
  | c1 :: c2 :: rest =>
      if c1 = '\n' ∧ c2 = '\n' then
        let p := splitFrames rest
        ([] :: p.1, p.2)
      else
        consFrame c1 (splitFrames (c2 :: rest))

/-- Does the buffer contain the frame boundary `"\n\n"`? -/
def hasLfLf : Chars → Bool
  | [] => false
  | c :: rest => (c = '\n' && rest.head? = some '\n') || hasLfLf rest

/-- Prepend a character to the first line, model step of `split(/\r?\n/)`. -/
def consLine (c : Char) (ls : List Chars) : List Chars :=
  match ls with
  | [] => [[c]]
  | l :: rest => (c :: l) :: rest

/-- Split a frame into lines at `\r\n` or `\n`, model of `split(/\r?\n/)`. -/
def splitEventLines : Chars → List Chars
  | [] => [[]]
  | [c] => if c = '\n' then [[], []] else [[c]]
  | c1 :: c2 :: rest =>
      if c1 = '\n' then [] :: splitEventLines (c2 :: rest)
      else if c1 = '\r' ∧ c2 = '\n' then [] :: splitEventLines rest
      else consLine c1 (splitEventLines (c2 :: rest))

/-- Split a field line at its first colon: the field name and, when a colon
is present, the raw value after it. -/
def splitFirstColon : Chars → Chars × Option Chars
  | [] => ([], none)
  | c :: rest =>
      if c = ':' then ([], some rest)
      else
        let p := splitFirstColon rest
        (c :: p.1, p.2)

/-- Per-frame accumulation state: repeated `data` values, and the last
`event` / `id` / `retry` values seen. -/
structure FrameAcc where
  dataParts : List Chars
  event : Option Chars
  id : Option Chars
  retry : Option Chars

/-- Process one line of a frame, mirroring the source's field switch:
empty and comment (leading `:`) lines are skipped; the value drops one
leading space; `data` accumulates, `event` / `id` overwrite, `retry` is
kept only when `Number(value)` is finite. -/
def processFieldLine (st : FrameAcc) (line : Chars) : FrameAcc :=
  if line.isEmpty || line.head? = some ':' then st
  else
    let p := splitFirstColon line
    let rawValue := p.2.getD []
    let value := if rawValue.head? = some ' ' then rawValue.tail else rawValue
    if p.1 = "data".data then { st with dataParts := st.dataParts ++ [value] }
    else if p.1 = "event".data then { st with event := some value }
    else if p.1 = "id".data then { st with id := some value }
    else if p.1 = "retry".data then
      if isFiniteJsNumber value then { st with retry := some value } else st
    else st

/-- Turn one complete frame into an event, or `none` when the joined
`data` is empty (the source's `continue`). -/
def frameToEvent (frame : Chars) : Option SseEvent :=
  let st := (splitEventLines frame).foldl processFieldLine ⟨[], none, none, none⟩
  let d := joinWith ['\n'] st.dataParts
  if d.isEmpty then none else some ⟨d, st.event, st.id, st.retry⟩

/-- One chunk arriving: append it to the buffer, emit the events of all
complete frames, keep the remainder. -/
def sseStep (st : List SseEvent × Chars) (chunk : Chars) : List SseEvent × Chars :=
  let p := splitFrames (st.2 ++ chunk)
  (st.1 ++ p.1.filterMap frameToEvent, p.2)

/-- The parsed event sequence of a chunked character stream; the buffer
left over at end of stream is discarded, exactly as in the source. -/
def parseSseChunks (chunks : List Chars) : List SseEvent :=
  (chunks.foldl sseStep ([], [])).1

/-! ### Structural lemmas about the frame splitter -/

theorem hasLfLf_cons (c : Char) (rest : Chars) :
    hasLfLf (c :: rest) = ((c = '\n' && rest.head? = some '\n') || hasLfLf rest) := rfl

theorem hasLfLf_cons_false {c : Char} {rest : Chars} (h : hasLfLf (c :: rest) = false) :
    hasLfLf rest = false := by
  rw [hasLfLf_cons] at h
  exact (Bool.or_eq_false_iff.mp h).2

theorem splitFrames_nil_snd : ∀ cs : Chars, (splitFrames cs).1 = [] → (splitFrames cs).2 = cs := by
  intro cs
  induction cs using splitFrames.induct with
  | case1 => intro _; rfl
  | case2 c => intro _; rfl
  | case3 c1 c2 rest hb ih =>
      simp [splitFrames, hb]
  | case4 c1 c2 rest hb ih =>
      intro h
      simp only [splitFrames, if_neg hb] at h ⊢
      rcases hsf : splitFrames (c2 :: rest) with ⟨fs, r⟩
      cases fs with
      | nil =>
          have := ih (by rw [hsf])
          rw [hsf] at this
          simp only [consFrame, hsf]
          simpa using this
      | cons f fs' => rw [hsf] at h; simp [consFrame] at h

theorem splitFrames_no_boundary : ∀ cs : Chars, hasLfLf cs = false → splitFrames cs = ([], cs) := by
  intro cs
  induction cs using splitFrames.induct with
  | case1 => intro _; rfl
  | case2 c => intro _; rfl
  | case3 c1 c2 rest hb ih =>
      intro h
      rw [hasLfLf_cons] at h
      simp [hb.1, hb.2] at h
  | case4 c1 c2 rest hb ih =>
      intro h
      simp only [splitFrames, if_neg hb, ih (hasLfLf_cons_false h), consFrame]

theorem splitFrames_leftover_no_boundary : ∀ cs : Chars, hasLfLf (splitFrames cs).2 = false := by
  intro cs
  induction cs using splitFrames.induct with
  | case1 => rfl
  | case2 c => simp [splitFrames, hasLfLf]
  | case3 c1 c2 rest hb ih =>
      simpa [splitFrames, hb] using ih
  | case4 c1 c2 rest hb ih =>
      simp only [splitFrames, if_neg hb]
      rcases hsf : splitFrames (c2 :: rest) with ⟨fs, r⟩
      rw [hsf] at ih
      cases fs with
      | nil =>
          have hr : r = c2 :: rest := by
            have h2 := splitFrames_nil_snd (c2 :: rest) (by rw [hsf])
            rw [hsf] at h2; exact h2
          subst hr
          simp only [consFrame]
          show hasLfLf (c1 :: c2 :: rest) = false
          rw [hasLfLf_cons]
          simp only at ih
          rw [ih]
          by_cases h1 : c1 = '\n'
          · by_cases h2 : c2 = '\n'
            · exact absurd ⟨h1, h2⟩ hb
            · simp [h1, h2]
          · simp [h1]
      | cons f fs' =>
          simpa [consFrame] using ih

theorem splitFrames_append : ∀ a b : Chars,
    splitFrames (a ++ b) =
      ((splitFrames a).1 ++ (splitFrames ((splitFrames a).2 ++ b)).1,
       (splitFrames ((splitFrames a).2 ++ b)).2) := by
  intro a b
  induction a using splitFrames.induct with
  | case1 => simp [splitFrames]
  | case2 c => simp [splitFrames]
  | case3 c1 c2 rest hb ih =>
      simp only [List.cons_append]
      simp only [splitFrames, if_pos hb]
      rw [ih]
      simp
  | case4 c1 c2 rest hb ih =>
      have hstepb : splitFrames (c1 :: c2 :: (rest ++ b)) = consFrame c1 (splitFrames (c2 :: (rest ++ b))) := by
        simp only [splitFrames, if_neg hb]
      have hstepa : splitFrames (c1 :: c2 :: rest) = consFrame c1 (splitFrames (c2 :: rest)) := by
        simp only [splitFrames, if_neg hb]
      rcases hsf : splitFrames (c2 :: rest) with ⟨fs, r⟩
      rw [hsf] at hstepa
      rw [List.cons_append] at ih
      rw [hsf] at ih
      cases fs with
      | nil =>
          have hr : r = c2 :: rest := by
            have h2 := splitFrames_nil_snd (c2 :: rest) (by rw [hsf])
            rw [hsf] at h2; exact h2
          subst hr
          simp only [List.cons_append, hstepb, hstepa, consFrame, List.nil_append]
      | cons f fs' =>
          simp only [List.cons_append, hstepb, hstepa, consFrame]
          rw [ih]
          simp [consFrame]

theorem sse_foldl (chunks : List Chars) : ∀ (evs : List SseEvent) (buf : Chars),
    hasLfLf buf = false →
    chunks.foldl sseStep (evs, buf) =
      (evs ++ (splitFrames (buf ++ chunks.flatten)).1.filterMap frameToEvent,
       (splitFrames (buf ++ chunks.flatten)).2) := by
  induction chunks with
  | nil =>
      intro evs buf hbuf
      simp [splitFrames_no_boundary buf hbuf]
  | cons ch rest ih =>
      intro evs buf hbuf
      simp only [List.foldl_cons, sseStep]
      rw [ih _ _ (splitFrames_leftover_no_boundary (buf ++ ch))]
      have happ := splitFrames_append (buf ++ ch) rest.flatten
      rw [List.flatten_cons, ← List.append_assoc, happ]
      simp [List.filterMap_append, List.append_assoc]

/-! ### Line splitting with CRLF line endings inside a frame -/

theorem splitEventLines_append_crlf :
    ∀ (l rest : Chars), (∀ c ∈ l, c ≠ '\n' ∧ c ≠ '\r') →
      splitEventLines (l ++ '\r' :: '\n' :: rest) = l :: splitEventLines rest
  | [], rest, _ => by simp [splitEventLines]
  | [c], rest, h => by
      have hc := h c (by simp)
      simp [splitEventLines, hc.1, hc.2, consLine]
  | c :: c2 :: l2, rest, h => by
      have hc := h c (by simp)
      have hc2 := h c2 (by simp)
      have ih := splitEventLines_append_crlf (c2 :: l2) rest (fun x hx => h x (List.mem_cons_of_mem _ hx))
      simp only [List.cons_append]
      rw [show splitEventLines (c :: c2 :: (l2 ++ '\r' :: '\n' :: rest))
            = consLine c (splitEventLines (c2 :: (l2 ++ '\r' :: '\n' :: rest))) from by
        simp [splitEventLines, hc.1, hc.2]]
      rw [show (c2 :: (l2 ++ '\r' :: '\n' :: rest)) = ((c2 :: l2) ++ '\r' :: '\n' :: rest) from rfl]
      rw [ih]
      simp [consLine]

theorem splitEventLines_append_lf :
    ∀ (l rest : Chars), (∀ c ∈ l, c ≠ '\n' ∧ c ≠ '\r') →
      splitEventLines (l ++ '\n' :: rest) = l :: splitEventLines rest
  | [], rest, _ => by
      cases rest <;> simp [splitEventLines]
  | [c], rest, h => by
      have hc := h c (by simp)
      cases rest <;> simp [splitEventLines, hc.1, hc.2, consLine]
  | c :: c2 :: l2, rest, h => by
      have hc := h c (by simp)
      have ih := splitEventLines_append_lf (c2 :: l2) rest (fun x hx => h x (List.mem_cons_of_mem _ hx))
      simp only [List.cons_append]
      rw [show splitEventLines (c :: c2 :: (l2 ++ '\n' :: rest))
            = consLine c (splitEventLines (c2 :: (l2 ++ '\n' :: rest))) from by
        simp [splitEventLines, hc.1, hc.2]]
      rw [show (c2 :: (l2 ++ '\n' :: rest)) = ((c2 :: l2) ++ '\n' :: rest) from rfl]
      rw [ih]
      simp [consLine]

theorem splitEventLines_crlf_eq_lf :
    ∀ lines : List Chars, (∀ l ∈ lines, ∀ c ∈ l, c ≠ '\n' ∧ c ≠ '\r') →
      splitEventLines (joinWith ['\r', '\n'] lines) = splitEventLines (joinWith ['\n'] lines)
  | [], _ => rfl
  | [l], _ => rfl
  | l :: l2 :: ls, h => by
      have hl := h l (by simp)
      have ih := splitEventLines_crlf_eq_lf (l2 :: ls) (fun x hx => h x (List.mem_cons_of_mem _ hx))
      have e1 : joinWith ['\r', '\n'] (l :: l2 :: ls)
          = l ++ ('\r' :: '\n' :: joinWith ['\r', '\n'] (l2 :: ls)) := by
        show l ++ ['\r', '\n'] ++ joinWith ['\r', '\n'] (l2 :: ls) = _
        rw [List.append_assoc]
        rfl
      have e2 : joinWith ['\n'] (l :: l2 :: ls) = l ++ ('\n' :: joinWith ['\n'] (l2 :: ls)) := by
        show l ++ ['\n'] ++ joinWith ['\n'] (l2 :: ls) = _
        rw [List.append_assoc]
        rfl
      rw [e1, e2, splitEventLines_append_crlf l _ hl, splitEventLines_append_lf l _ hl, ih]

/-! ## Tool-name sanitization (src: `antigravity/tool-schema-cache.ts`)

`sanitizeToolNameForGemini` prefixes `t_` to names that start with a digit
and records the sanitized → original mapping in the process-wide
`sanitizedToOriginalToolName` map; `resolveOriginalToolName` is the reverse
lookup, defaulting to its input.  The map state is made explicit. -/

/-- Insertion-ordered string map with JS `Map.set` overwrite semantics. -/
def mapSet : List (String × String) → String → String → List (String × String)
  | [], k, v => [(k, v)]
  | p :: rest, k, v => if p.1 = k then (k, v) :: rest else p :: mapSet rest k v

/-- JS `Map.get`, as an option. -/
def mapGet : List (String × String) → String → Option String
  | [], _ => none
  | p :: rest, k => if p.1 = k then some p.2 else mapGet rest k

/-- Does the name match `/^[0-9]/`? -/
def startsWithDigit (name : String) : Bool :=
  match name.data with
  | c :: _ => '0' ≤ c && c ≤ '9'
  | [] => false

/-- `sanitizeToolNameForGemini`, with the `sanitizedToOriginalToolName` map
threaded explicitly; returns the sanitized name and the updated map. -/
def sanitizeToolNameForGemini (m : List (String × String)) (name : String) :
    String × List (String × String) :=
  let sanitized := if startsWithDigit name then "t_" ++ name else name
  if sanitized ≠ name then (sanitized, mapSet m sanitized name) else (sanitized, m)

/-- `resolveOriginalToolName`: reverse lookup defaulting to the input. -/
def resolveOriginalToolName (m : List (String × String)) (name : String) : String :=
  (mapGet m name).getD name

/-! ## Thought-signature cache (src: `antigravity/thought-signature-cache.ts`)

The source keys the cache by the SHA-256 hex digest of the string
`` `${family}:${sessionId}:${normalizedText}` `` where normalization is
`text.trim()`.  Since the digest is a deterministic function of that
string, equal key strings always hit the same entry; we model the cache
keyed by the digest's preimage.  (Digest collisions between distinct key
strings are abstracted away; no claim below relies on their absence for a
positive result.) -/

inductive AntigravityModelFamily where
  | claude
  | geminiFlash
  | geminiPro
deriving DecidableEq, Repr

/-- The wire string of a model family (the TS type is the union
`'claude' | 'gemini-flash' | 'gemini-pro'`). -/
def familyStr : AntigravityModelFamily → String
  | .claude => "claude"
  | .geminiFlash => "gemini-flash"
  | .geminiPro => "gemini-pro"

/-- `normalizeThoughtText`. -/
def normalizeThoughtText (text : String) : String := jsTrimString text

/-- The preimage of the SHA-256 cache key of `getSignatureKey`. -/
def getSignatureKey (family : AntigravityModelFamily) (sessionId thoughtText : String) : String :=
  familyStr family ++ ":" ++ sessionId ++ ":" ++ normalizeThoughtText thoughtText

/-- `cacheThoughtSignature`, with the module-level `signatureCache` map
threaded explicitly. -/
def cacheThoughtSignature (cache : List (String × String))
    (family : AntigravityModelFamily) (sessionId thoughtText signature : String) :
    List (String × String) :=
  mapSet cache (getSignatureKey family sessionId thoughtText) signature

/-- `getCachedThoughtSignature`. -/
def getCachedThoughtSignature (cache : List (String × String))
    (family : AntigravityModelFamily) (sessionId thoughtText : String) : Option String :=
  mapGet cache (getSignatureKey family sessionId thoughtText)

/-! ## Thinking configuration (src: `antigravity-client.ts`)

`buildThinkingConfigForAntigravity` builds the `thinkingConfig` object of
the generation config; `mapThinkingEffortToLevelString` coarsens the
configured effort.  `ModelConfig['thinking']` (declared in `src/types.ts`,
whose text is not part of this snapshot) carries an optional `type` tag
(`'disabled'` is the relevant value), an optional `effort` in
`minimal | low | medium | high | xhigh | none`, and an optional numeric
`budgetTokens`; the optionality of `effort` and `budgetTokens` is visible
in the client's own guards (`if (thinking.effort)`,
`thinking.budgetTokens !== undefined`). -/

inductive ThinkingEffort where
  | eMinimal
  | eLow
  | eMedium
  | eHigh
  | eXhigh
  | eNone
deriving DecidableEq, Repr

structure ThinkingSetting where
  ttype : Option String
  effort : Option ThinkingEffort
  budgetTokens : Option Int
deriving DecidableEq, Repr

/-- The emitted `thinkingConfig` object: `includeThoughts` plus at most one
of the `thinkingLevel` / `thinkingBudget` keys (a missing key is `none`). -/
structure ThinkingConfigOut where
  includeThoughts : Bool
  thinkingLevel : Option String
  thinkingBudget : Option Int
deriving DecidableEq, Repr

/-- `mapThinkingEffortToLevelString`. -/
def mapThinkingEffortToLevelString : ThinkingEffort → String
  | .eMinimal => "minimal"
  | .eLow => "low"
  | .eMedium => "medium"
  | .eHigh => "high"
  | .eXhigh => "high"
  | .eNone => "minimal"

/-- `buildThinkingConfigForAntigravity`: the source builds `out` with
`thinkingLevel` set only when an effort is present and `thinkingBudget`
always set (explicit value or `-1`), then deletes whichever key the
`useThinkingLevel` feature flag does not select. -/
def buildThinkingConfigForAntigravity (thinking : Option ThinkingSetting)
    (useThinkingLevel : Bool) : Option ThinkingConfigOut :=
  match thinking with
  | none => none
  | some th =>
      if th.ttype = some "disabled" ∨ th.effort = some .eNone then
        some (if useThinkingLevel then ⟨false, some "minimal", none⟩ else ⟨false, none, some 0⟩)
      else
        let lvl := th.effort.map mapThinkingEffortToLevelString
        let bud := th.budgetTokens.getD (-1)
        some (if useThinkingLevel then ⟨true, lvl, none⟩ else ⟨true, none, some bud⟩)

/-! ## Endpoint fallback loop (src: `antigravity-client.ts`, `streamChat`)

Both the streaming and non-streaming paths iterate over
`CODE_ASSIST_ENDPOINT_FALLBACKS` in order.  An attempt either resolves to
a response (with a status, a body-presence flag for streaming, and the
error text that `formatAntigravityHttpError` would produce from its body)
or throws.  The loop stops at the first response with `r.ok` (status
200–299) — and, on the streaming path, a present body — otherwise records
`lastError` (overwriting) and continues; when no attempt succeeds the call
fails with the last recorded error, defaulting to `'Unknown error'`. -/

inductive AttemptOutcome where
  | resp (status : Nat) (hasBody : Bool) (errText : String)
  | thrown (msg : String)
deriving DecidableEq, Repr

/-- The WHATWG `Response.ok` predicate. -/
def respOk (status : Nat) : Bool := 200 ≤ status && status ≤ 299

/-- Does the loop accept this attempt (`r.ok && r.body` when streaming,
`r.ok` otherwise)? -/
def attemptSucceeds (streaming : Bool) : AttemptOutcome → Bool
  | .resp status hasBody _ => respOk status && (!streaming || hasBody)
  | .thrown _ => false

/-- The `lastError` string recorded for a failed attempt:
`` `HTTP ${r.status} ${message}`.trim() `` for an HTTP failure, the thrown
message otherwise. -/
def attemptError : AttemptOutcome → String
  | .resp status _ errText => jsTrimString ("HTTP " ++ Nat.repr status ++ " " ++ errText)
  | .thrown msg => msg

/-- The fallback loop over the (outcomes of the) ordered endpoint list,
threading `lastError`; returns the index of the chosen endpoint and its
outcome, or the final error. -/
def runFallbackAux (streaming : Bool) (lastError : Option String) (idx : Nat) :
    List AttemptOutcome → Except String (Nat × AttemptOutcome)
  | [] => .error ("Antigravity request failed: " ++ lastError.getD "Unknown error")
  | o :: rest =>
      if attemptSucceeds streaming o then .ok (idx, o)
      else runFallbackAux streaming (some (attemptError o)) (idx + 1) rest

/-- Entry point of the loop (`lastError` starts undefined, index 0). -/
def runFallback (streaming : Bool) (outcomes : List AttemptOutcome) :
    Except String (Nat × AttemptOutcome) :=
  runFallbackAux streaming none 0 outcomes

/-! ## JSON values

Model of the JavaScript values produced by `JSON.parse`: `null`, booleans,
numbers, strings, arrays, and plain objects.  Numbers keep their source
lexeme — none of the embedded code ever computes with a parsed number, so
the lexeme preserves all information the claims need.  Objects are
insertion-ordered key/value lists; duplicate keys collapse with
last-writer-wins on the original position, as in JavaScript. -/

inductive Json where
  | jnull
  | jbool (b : Bool)
  | jnum (lexeme : Chars)
  | jstr (s : Chars)
  | jarr (elems : List Json)
  | jobj (members : List (Chars × Json))
deriving Repr

mutual
def jsonBeq : Json → Json → Bool
  | .jnull, .jnull => true
  | .jbool a, .jbool b => a = b
  | .jnum a, .jnum b => a = b
  | .jstr a, .jstr b => a = b
  | .jarr a, .jarr b => jsonListBeq a b
  | .jobj a, .jobj b => jsonMembersBeq a b
  | _, _ => false
def jsonListBeq : List Json → List Json → Bool
  | [], [] => true
  | a :: as1, b :: bs1 => jsonBeq a b && jsonListBeq as1 bs1
  | _, _ => false
def jsonMembersBeq : List (Chars × Json) → List (Chars × Json) → Bool
  | [], [] => true
  | a :: as1, b :: bs1 => (a.1 = b.1 : Bool) && jsonBeq a.2 b.2 && jsonMembersBeq as1 bs1
  | _, _ => false
end

mutual
theorem jsonBeq_iff : ∀ a b : Json, jsonBeq a b = true ↔ a = b
  | .jnull, b => by cases b <;> simp [jsonBeq]
  | .jbool x, b => by cases b <;> simp [jsonBeq]
  | .jnum x, b => by cases b <;> simp [jsonBeq]
  | .jstr x, b => by cases b <;> simp [jsonBeq]
  | .jarr xs, b => by
      cases b <;> simp [jsonBeq]
      exact jsonListBeq_iff xs _
  | .jobj ms, b => by
      cases b <;> simp [jsonBeq]
      exact jsonMembersBeq_iff ms _
theorem jsonListBeq_iff : ∀ a b : List Json, jsonListBeq a b = true ↔ a = b
  | [], b => by cases b <;> simp [jsonListBeq]
  | x :: xs, b => by
      cases b with
      | nil => simp [jsonListBeq]
      | cons y ys => simp [jsonListBeq, jsonBeq_iff x y, jsonListBeq_iff xs ys]
theorem jsonMembersBeq_iff : ∀ a b : List (Chars × Json), jsonMembersBeq a b = true ↔ a = b
  | [], b => by cases b <;> simp [jsonMembersBeq]
  | x :: xs, b => by
      cases b with
      | nil => simp [jsonMembersBeq]
      | cons y ys =>
          simp [jsonMembersBeq, jsonBeq_iff x.2 y.2, jsonMembersBeq_iff xs ys,
            Prod.ext_iff, and_assoc]
end

instance : DecidableEq Json := fun a b =>
  decidable_of_iff (jsonBeq a b = true) (jsonBeq_iff a b)

/-! ### A size measure on JSON values

`mu` weights a string leaf by its length; it is the measure under which
the recursion of `recursivelyParseJsonStrings` descends: any value that
`JSON.parse` produces from a string is `mu`-smaller than that string is as
a leaf (proved below as `parseVal_mu` / `jsonParseChars_mu`). -/

mutual
def mu : Json → Nat
  | .jnull => 1
  | .jbool _ => 1
  | .jnum _ => 1
  | .jstr s => s.length + 1
  | .jarr xs => 1 + muList xs
  | .jobj ms => 1 + muMembers ms
def muList : List Json → Nat
  | [] => 0
  | x :: xs => mu x + muList xs
def muMembers : List (Chars × Json) → Nat
  | [] => 0
  | p :: ps => mu p.2 + muMembers ps
end

theorem mu_pos : ∀ v : Json, 1 ≤ mu v
  | .jnull => le_refl 1
  | .jbool _ => le_refl 1
  | .jnum _ => le_refl 1
  | .jstr s => by simp [mu]
  | .jarr xs => by simp [mu]
  | .jobj ms => by simp [mu]

theorem mu_le_muList {x : Json} : ∀ {xs : List Json}, x ∈ xs → mu x ≤ muList xs := by
  intro xs hmem
  induction xs with
  | nil => cases hmem
  | cons y ys ih =>
      rcases List.mem_cons.mp hmem with h | h
      · subst h; simp [muList]
      · have := ih h
        simp [muList]
        omega

theorem mu_le_muMembers {p : Chars × Json} :
    ∀ {ms : List (Chars × Json)}, p ∈ ms → mu p.2 ≤ muMembers ms := by
  intro ms hmem
  induction ms with
  | nil => cases hmem
  | cons q qs ih =>
      rcases List.mem_cons.mp hmem with h | h
      · subst h; simp [muMembers]
      · have := ih h
        simp [muMembers]
        omega

/-! ### Object assembly with JavaScript duplicate-key semantics -/

/-- Assign `k ↦ v` in an insertion-ordered object: overwrite in place when
the key exists, append otherwise (JS property assignment order). -/
def insertPair : List (Chars × Json) → Chars → Json → List (Chars × Json)
  | [], k, v => [(k, v)]
  | p :: rest, k, v => if p.1 = k then (k, v) :: rest else p :: insertPair rest k v

/-- Build the object produced by evaluating a member list in order. -/
def buildObj (ms : List (Chars × Json)) : List (Chars × Json) :=
  ms.foldl (fun acc p => insertPair acc p.1 p.2) []

theorem muMembers_insertPair : ∀ (l : List (Chars × Json)) (k : Chars) (v : Json),
    muMembers (insertPair l k v) ≤ muMembers l + mu v := by
  intro l k v
  induction l with
  | nil => simp [insertPair, muMembers]
  | cons p rest ih =>
      by_cases h : p.1 = k <;> simp [insertPair, h, muMembers] <;> omega

theorem muMembers_buildObj_aux : ∀ (ms acc : List (Chars × Json)),
    muMembers (ms.foldl (fun acc p => insertPair acc p.1 p.2) acc) ≤ muMembers acc + muMembers ms := by
  intro ms
  induction ms with
  | nil => intro acc; simp [muMembers]
  | cons p rest ih =>
      intro acc
      simp only [List.foldl_cons]
      calc muMembers (rest.foldl (fun acc p => insertPair acc p.1 p.2) (insertPair acc p.1 p.2))
          ≤ muMembers (insertPair acc p.1 p.2) + muMembers rest := ih _
        _ ≤ (muMembers acc + mu p.2) + muMembers rest := by
            have := muMembers_insertPair acc p.1 p.2
            omega
        _ = muMembers acc + muMembers (p :: rest) := by simp [muMembers]; omega

theorem muMembers_buildObj (ms : List (Chars × Json)) :
    muMembers (buildObj ms) ≤ muMembers ms := by
  have := muMembers_buildObj_aux ms []
  simpa [buildObj, muMembers] using this

/-! ## Model of JavaScript `JSON.parse`

A recursive-descent parser over `Chars`, following RFC 8259 exactly as the
JavaScript built-in does: the four JSON white-space characters, literals,
numbers (`-? (0 | [1-9][0-9]*) ('.' [0-9]+)? ([eE][+-]?[0-9]+)?`), strings
(escape sequences `\" \\ \/ \b \f \n \r \t \uXXXX`; raw control characters
below U+0020 rejected), arrays and objects.  A `\u` escape denoting a lone
surrogate is mapped through `Char.ofNat`'s fallback (JS strings can hold
lone surrogates, Lean `Char` cannot; no claim distinguishes such values).
The mutual recursion is driven by a fuel counter; `2 · length + 2` fuel
always suffices since every other nested call consumes input.  Numbers are
returned as their lexemes. -/

def jsonWsChar (c : Char) : Bool := c = ' ' || c = '\t' || c = '\n' || c = '\r'

def skipJsonWs : Chars → Chars
  | [] => []
  | c :: rest => if jsonWsChar c then skipJsonWs rest else c :: rest

def hexDigVal (c : Char) : Option Nat :=
  if '0' ≤ c ∧ c ≤ '9' then some (c.toNat - '0'.toNat)
  else if 'a' ≤ c ∧ c ≤ 'f' then some (c.toNat - 'a'.toNat + 10)
  else if 'A' ≤ c ∧ c ≤ 'F' then some (c.toNat - 'A'.toNat + 10)
  else none

def escCharVal : Char → Option Char
  | '"' => some '"'
  | '\\' => some '\\'
  | '/' => some '/'
  | 'b' => some (Char.ofNat 8)
  | 'f' => some (Char.ofNat 12)
  | 'n' => some '\n'
  | 'r' => some '\r'
  | 't' => some '\t'
  | _ => none

/-- Parse the body of a JSON string literal (the characters after the
opening quote), returning the decoded content and the input after the
closing quote. -/
def parseStringBody : Chars → Option (Chars × Chars)
  | [] => none
  | '"' :: rest => some ([], rest)
  | '\\' :: rest =>
      match rest with
      | 'u' :: a :: b :: c :: d :: r2 =>
          match hexDigVal a, hexDigVal b, hexDigVal c, hexDigVal d with
          | some va, some vb, some vc, some vd =>
              match parseStringBody r2 with
              | some (t, r3) => some (Char.ofNat (((va * 16 + vb) * 16 + vc) * 16 + vd) :: t, r3)
              | none => none
          | _, _, _, _ => none
      | e :: r2 =>
          match escCharVal e with
          | some ch =>
              match parseStringBody r2 with
              | some (t, r3) => some (ch :: t, r3)
              | none => none
          | none => none
      | [] => none
  | c :: rest =>
      if c.toNat < 32 then none
      else
        match parseStringBody rest with
        | some (t, r3) => some (c :: t, r3)
        | none => none

/-- Split an optional leading sign (for the exponent part). -/
def signSplit : Chars → Chars × Chars
  | '+' :: r => (['+'], r)
  | '-' :: r => (['-'], r)
  | cs => ([], cs)

/-- Split an optional leading minus sign (for the number itself). -/
def minusSplit : Chars → Chars × Chars
  | '-' :: r => (['-'], r)
  | cs => ([], cs)

/-- Parse the optional fraction part `('.' [0-9]+)?`, returning the
consumed lexeme. -/
def parseFracPart : Chars → Option (Chars × Chars)
  | '.' :: rr =>
      let p := takeDigs rr
      if p.1.isEmpty then none else some ('.' :: p.1, p.2)
  | cs => some ([], cs)

/-- Parse the optional exponent part `([eE][+-]?[0-9]+)?`. -/
def parseExpPart : Chars → Option (Chars × Chars)
  | c :: rr =>
      if c = 'e' ∨ c = 'E' then
        let p := signSplit rr
        let q := takeDigs p.2
        if q.1.isEmpty then none else some (c :: p.1 ++ q.1, q.2)
      else some ([], c :: rr)
  | [] => some ([], [])

/-- Parse a JSON number starting at the current position, returning its
lexeme. -/
def parseJsonNumber (cs : Chars) : Option (Chars × Chars) :=
  let p := minusSplit cs
  match p.2 with
  | '0' :: r1 =>
      match parseFracPart r1 with
      | none => none
      | some (fr, r2) =>
          match parseExpPart r2 with
          | none => none
          | some (ex, r3) => some (p.1 ++ '0' :: fr ++ ex, r3)
  | c :: r1 =>
      if isDig c then
        let q := takeDigs r1
        match parseFracPart q.2 with
        | none => none
        | some (fr, r2) =>
            match parseExpPart r2 with
            | none => none
            | some (ex, r3) => some (p.1 ++ c :: q.1 ++ fr ++ ex, r3)
      else none
  | [] => none

mutual
def parseVal (fuel : Nat) (cs : Chars) : Option (Json × Chars) :=
  match fuel with
  | 0 => none
  | fuel + 1 =>
    match skipJsonWs cs with
    | 'n' :: 'u' :: 'l' :: 'l' :: r => some (.jnull, r)
    | 't' :: 'r' :: 'u' :: 'e' :: r => some (.jbool true, r)
    | 'f' :: 'a' :: 'l' :: 's' :: 'e' :: r => some (.jbool false, r)
    | '"' :: r =>
        match parseStringBody r with
        | some (s, r2) => some (.jstr s, r2)
        | none => none
    | '[' :: r =>
        match skipJsonWs r with
        | ']' :: r2 => some (.jarr [], r2)
        | r1 =>
            match parseItems fuel r1 with
            | some (es, r2) => some (.jarr es, r2)
            | none => none
    | '{' :: r =>
        match skipJsonWs r with
        | '}' :: r2 => some (.jobj [], r2)
        | r1 =>
            match parsePairs fuel r1 with
            | some (ms, r2) => some (.jobj (buildObj ms), r2)
            | none => none
    | c :: r =>
        if c = '-' ∨ isDig c then
          match parseJsonNumber (c :: r) with
          | some (lex, r2) => some (.jnum lex, r2)
          | none => none
        else none
    | [] => none

def parseItems (fuel : Nat) (cs : Chars) : Option (List Json × Chars) :=
  match fuel with
  | 0 => none
  | fuel + 1 =>
    match parseVal fuel cs with
    | none => none
    | some (v, r) =>
        match skipJsonWs r with
        | ',' :: r2 =>
            match parseItems fuel r2 with
            | some (es, r3) => some (v :: es, r3)
            | none => none
        | ']' :: r2 => some ([v], r2)
        | _ => none

def parsePairs (fuel : Nat) (cs : Chars) : Option (List (Chars × Json) × Chars) :=
  match fuel with
  | 0 => none
  | fuel + 1 =>
    match skipJsonWs cs with
    | '"' :: r =>
        match parseStringBody r with
        | none => none
        | some (k, r1) =>
            match skipJsonWs r1 with
            | ':' :: r2 =>
                match parseVal fuel r2 with
                | none => none
                | some (v, r3) =>
                    match skipJsonWs r3 with
                    | ',' :: r4 =>
                        match parsePairs fuel r4 with
                        | some (ms, r5) => some ((k, v) :: ms, r5)
                        | none => none
                    | '}' :: r4 => some ([(k, v)], r4)
                    | _ => none
            | _ => none
    | _ => none
end

/-- `JSON.parse`: parse one value, allow trailing white space only. -/
def jsonParseChars (cs : Chars) : Option Json :=
  match parseVal (2 * cs.length + 2) cs with
  | some (v, r) => if (skipJsonWs r).isEmpty then some v else none
  | none => none

/-! ### Input consumed by the parser bounds the size of its result -/

theorem skipJsonWs_len : ∀ cs : Chars, (skipJsonWs cs).length ≤ cs.length
  | [] => le_refl 0
  | c :: rest => by
      by_cases h : jsonWsChar c
      · simp only [skipJsonWs, if_pos h]
        have := skipJsonWs_len rest
        simp only [List.length_cons]
        omega
      · simp [skipJsonWs, if_neg h]

theorem takeDigs_len : ∀ cs : Chars, (takeDigs cs).1.length + (takeDigs cs).2.length = cs.length
  | [] => rfl
  | c :: rest => by
      by_cases h : isDig c
      · simp only [takeDigs, if_pos h]
        have := takeDigs_len rest
        simp only [List.length_cons]
        omega
      · simp [takeDigs, if_neg h]

theorem parseStringBody_len : ∀ (cs s r : Chars), parseStringBody cs = some (s, r) →
    s.length + 1 + r.length ≤ cs.length := by
  intro cs
  induction cs using parseStringBody.induct with
  | case1 =>
      intro s r h; simp [parseStringBody] at h
  | case2 rest =>
      intro s r h
      simp only [parseStringBody, Option.some.injEq, Prod.mk.injEq] at h
      obtain ⟨rfl, rfl⟩ := h
      simp only [List.length_nil, List.length_cons]
      omega
  | case3 a b c d r2 va vb vc vd hd hc hb ha t r3 hp ih =>
      intro s r h
      simp only [parseStringBody, ha, hb, hc, hd, hp, Option.some.injEq, Prod.mk.injEq] at h
      obtain ⟨rfl, rfl⟩ := h
      have := ih t r3 hp
      simp only [List.length_cons]
      omega
  | case4 a b c d r2 va vb vc vd hd hc hb ha hp =>
      intro s r h
      simp only [parseStringBody, ha, hb, hc, hd, hp] at h
      simp at h
  | case5 a b c d r2 hno =>
      intro s r h
      simp only [parseStringBody] at h
      simp at h
  | case6 e r2 hne ch hch t r3 hp ih =>
      intro s r h
      simp only [parseStringBody, hch, hp, Option.some.injEq, Prod.mk.injEq] at h
      obtain ⟨rfl, rfl⟩ := h
      have := ih t r3 hp
      simp only [List.length_cons]
      omega
  | case7 e r2 hne ch hch hp =>
      intro s r h
      simp only [parseStringBody, hch, hp] at h
      simp at h
  | case8 e r2 hne hch =>
      intro s r h
      simp only [parseStringBody, hch] at h
      simp at h
  | case9 =>
      intro s r h
      simp [parseStringBody] at h
  | case10 c rest hq hbs hlt =>
      intro s r h
      simp only [parseStringBody, if_pos hlt] at h
      simp at h
  | case11 c rest hq hbs hlt t r3 hp ih =>
      intro s r h
      simp only [parseStringBody, if_neg hlt, hp, Option.some.injEq, Prod.mk.injEq] at h
      obtain ⟨rfl, rfl⟩ := h
      have := ih t r3 hp
      simp only [List.length_cons]
      omega
  | case12 c rest hq hbs hlt hp =>
      intro s r h
      simp only [parseStringBody, if_neg hlt, hp] at h
      simp at h


theorem signSplit_len (cs : Chars) : (signSplit cs).2.length ≤ cs.length := by
  rw [signSplit.eq_def]
  split <;> simp

theorem minusSplit_len (cs : Chars) : (minusSplit cs).2.length ≤ cs.length := by
  rw [minusSplit.eq_def]
  split <;> simp

theorem parseFracPart_len (cs fr r : Chars) (h : parseFracPart cs = some (fr, r)) :
    r.length ≤ cs.length := by
  rw [parseFracPart.eq_def] at h
  split at h
  · rename_i rr
    simp only [] at h
    split at h
    · simp at h
    · simp only [Option.some.injEq, Prod.mk.injEq] at h
      obtain ⟨rfl, rfl⟩ := h
      have := takeDigs_len rr
      simp only [List.length_cons]
      omega
  · simp only [Option.some.injEq, Prod.mk.injEq] at h
    obtain ⟨rfl, rfl⟩ := h
    exact le_refl _

theorem parseExpPart_len (cs ex r : Chars) (h : parseExpPart cs = some (ex, r)) :
    r.length ≤ cs.length := by
  rw [parseExpPart.eq_def] at h
  split at h
  · rename_i c rr
    split at h
    · simp only [] at h
      split at h
      · simp at h
      · simp only [Option.some.injEq, Prod.mk.injEq] at h
        obtain ⟨rfl, rfl⟩ := h
        have h1 := takeDigs_len (signSplit rr).2
        have h2 := signSplit_len rr
        simp only [List.length_cons]
        omega
    · simp only [Option.some.injEq, Prod.mk.injEq] at h
      obtain ⟨rfl, rfl⟩ := h
      exact le_refl _
  · simp only [Option.some.injEq, Prod.mk.injEq] at h
    obtain ⟨rfl, rfl⟩ := h
    exact le_refl _

theorem parseJsonNumber_len (cs lex r : Chars) (h : parseJsonNumber cs = some (lex, r)) :
    r.length < cs.length := by
  have hms := minusSplit_len cs
  rw [parseJsonNumber.eq_def] at h
  simp only [] at h
  split at h
  · rename_i r1 hr1
    split at h
    · simp at h
    · rename_i fr r2 hfr
      split at h
      · simp at h
      · rename_i ex r3 hex
        simp only [Option.some.injEq, Prod.mk.injEq] at h
        obtain ⟨rfl, rfl⟩ := h
        have h1 := parseFracPart_len _ _ _ hfr
        have h2 := parseExpPart_len _ _ _ hex
        have : r1.length + 1 = (minusSplit cs).2.length := by rw [hr1]; simp
        omega
  · rename_i c0 r1 hguard hr1
    split at h
    · split at h
      · simp at h
      · rename_i fr r2 hfr
        split at h
        · simp at h
        · rename_i ex r3 hex
          simp only [Option.some.injEq, Prod.mk.injEq] at h
          obtain ⟨rfl, rfl⟩ := h
          have h1 := parseFracPart_len _ _ _ hfr
          have h2 := parseExpPart_len _ _ _ hex
          have h3 := takeDigs_len r1
          have : r1.length + 1 = (minusSplit cs).2.length := by rw [hr1]; simp
          omega
    · simp at h
  · simp at h

mutual
theorem parseVal_mu : ∀ (fuel : Nat) (cs : Chars) (v : Json) (r : Chars),
    parseVal fuel cs = some (v, r) → mu v + r.length ≤ cs.length
  | 0, cs, v, r, h => by simp [parseVal] at h
  | fuel + 1, cs, v, r, h => by
      have hsk := skipJsonWs_len cs
      rw [parseVal] at h
      split at h
      · rename_i r0 heq
        simp only [Option.some.injEq, Prod.mk.injEq] at h
        obtain ⟨rfl, rfl⟩ := h
        have hlen := congrArg List.length heq
        simp only [List.length_cons] at hlen
        simp only [mu]
        omega
      · rename_i r0 heq
        simp only [Option.some.injEq, Prod.mk.injEq] at h
        obtain ⟨rfl, rfl⟩ := h
        have hlen := congrArg List.length heq
        simp only [List.length_cons] at hlen
        simp only [mu]
        omega
      · rename_i r0 heq
        simp only [Option.some.injEq, Prod.mk.injEq] at h
        obtain ⟨rfl, rfl⟩ := h
        have hlen := congrArg List.length heq
        simp only [List.length_cons] at hlen
        simp only [mu]
        omega
      · rename_i r0 heq
        split at h
        · rename_i s0 r2 hsb
          simp only [Option.some.injEq, Prod.mk.injEq] at h
          obtain ⟨rfl, rfl⟩ := h
          have hlen := congrArg List.length heq
          simp only [List.length_cons] at hlen
          have hb := parseStringBody_len r0 s0 r2 hsb
          simp only [mu]
          omega
        · simp at h
      · rename_i r0 heq
        split at h
        · rename_i r2 heq2
          simp only [Option.some.injEq, Prod.mk.injEq] at h
          obtain ⟨rfl, rfl⟩ := h
          have hlen := congrArg List.length heq
          simp only [List.length_cons] at hlen
          have hlen2 := congrArg List.length heq2
          simp only [List.length_cons] at hlen2
          have hsk2 := skipJsonWs_len r0
          simp only [mu, muList]
          omega
        · rename_i hg
          split at h
          · rename_i es r2 hit
            simp only [Option.some.injEq, Prod.mk.injEq] at h
            obtain ⟨rfl, rfl⟩ := h
            have hlen := congrArg List.length heq
            simp only [List.length_cons] at hlen
            have hsk2 := skipJsonWs_len r0
            have hi := parseItems_mu fuel (skipJsonWs r0) es r2 hit
            simp only [mu]
            omega
          · simp at h
      · rename_i r0 heq
        split at h
        · rename_i r2 heq2
          simp only [Option.some.injEq, Prod.mk.injEq] at h
          obtain ⟨rfl, rfl⟩ := h
          have hlen := congrArg List.length heq
          simp only [List.length_cons] at hlen
          have hlen2 := congrArg List.length heq2
          simp only [List.length_cons] at hlen2
          have hsk2 := skipJsonWs_len r0
          simp only [mu, muMembers, buildObj, List.foldl_nil]
          omega
        · rename_i hg
          split at h
          · rename_i ms r2 hps
            simp only [Option.some.injEq, Prod.mk.injEq] at h
            obtain ⟨rfl, rfl⟩ := h
            have hlen := congrArg List.length heq
            simp only [List.length_cons] at hlen
            have hsk2 := skipJsonWs_len r0
            have hp := parsePairs_mu fuel (skipJsonWs r0) ms r2 hps
            have hbo := muMembers_buildObj ms
            simp only [mu]
            omega
          · simp at h
      · rename_i c0 r0 hg1 hg2 hg3 hg4 hg5 hg6 heq
        split at h
        · split at h
          · rename_i lex r2 hnum
            simp only [Option.some.injEq, Prod.mk.injEq] at h
            obtain ⟨rfl, rfl⟩ := h
            have hlen := congrArg List.length heq
            simp only [List.length_cons] at hlen
            have hn := parseJsonNumber_len (c0 :: r0) lex r2 hnum
            simp only [List.length_cons] at hn
            simp only [mu]
            omega
          · simp at h
        · simp at h
      · simp at h

theorem parseItems_mu : ∀ (fuel : Nat) (cs : Chars) (es : List Json) (r : Chars),
    parseItems fuel cs = some (es, r) → muList es + r.length < cs.length
  | 0, cs, es, r, h => by simp [parseItems] at h
  | fuel + 1, cs, es, r, h => by
      rw [parseItems] at h
      split at h
      · simp at h
      · rename_i v0 r0 hpv
        have hv := parseVal_mu fuel cs v0 r0 hpv
        have hv1 := mu_pos v0
        split at h
        · rename_i r2 heq2
          split at h
          · rename_i es2 r3 hit
            simp only [Option.some.injEq, Prod.mk.injEq] at h
            obtain ⟨rfl, rfl⟩ := h
            have hlen2 := congrArg List.length heq2
            simp only [List.length_cons] at hlen2
            have hsk2 := skipJsonWs_len r0
            have hi := parseItems_mu fuel r2 es2 r3 hit
            simp only [muList]
            omega
          · simp at h
        · rename_i r2 heq2
          simp only [Option.some.injEq, Prod.mk.injEq] at h
          obtain ⟨rfl, rfl⟩ := h
          have hlen2 := congrArg List.length heq2
          simp only [List.length_cons] at hlen2
          have hsk2 := skipJsonWs_len r0
          simp only [muList]
          omega
        · simp at h

theorem parsePairs_mu : ∀ (fuel : Nat) (cs : Chars) (ms : List (Chars × Json)) (r : Chars),
    parsePairs fuel cs = some (ms, r) → muMembers ms + r.length < cs.length
  | 0, cs, ms, r, h => by simp [parsePairs] at h
  | fuel + 1, cs, ms, r, h => by
      have hsk := skipJsonWs_len cs
      rw [parsePairs] at h
      split at h
      · rename_i r0 heq
        have hlen := congrArg List.length heq
        simp only [List.length_cons] at hlen
        split at h
        · simp at h
        · rename_i k r1 hkey
          have hk := parseStringBody_len r0 k r1 hkey
          split at h
          · rename_i r2 heq2
            have hlen2 := congrArg List.length heq2
            simp only [List.length_cons] at hlen2
            have hsk2 := skipJsonWs_len r1
            split at h
            · simp at h
            · rename_i v0 r3 hpv
              have hv := parseVal_mu fuel r2 v0 r3 hpv
              have hv1 := mu_pos v0
              split at h
              · rename_i r4 heq4
                have hlen4 := congrArg List.length heq4
                simp only [List.length_cons] at hlen4
                have hsk4 := skipJsonWs_len r3
                split at h
                · rename_i ms2 r5 hp2
                  simp only [Option.some.injEq, Prod.mk.injEq] at h
                  obtain ⟨rfl, rfl⟩ := h
                  have hp := parsePairs_mu fuel r4 ms2 r5 hp2
                  simp only [muMembers]
                  omega
                · simp at h
              · rename_i r4 heq4
                simp only [Option.some.injEq, Prod.mk.injEq] at h
                obtain ⟨rfl, rfl⟩ := h
                have hlen4 := congrArg List.length heq4
                simp only [List.length_cons] at hlen4
                have hsk4 := skipJsonWs_len r3
                simp only [muMembers]
                omega
              · simp at h
          · simp at h
      · simp at h
end

/-- Any value `JSON.parse` produces from a string is `mu`-bounded by the
string's length. -/
theorem jsonParseChars_mu (cs : Chars) (v : Json) (h : jsonParseChars cs = some v) :
    mu v ≤ cs.length := by
  unfold jsonParseChars at h
  split at h
  · rename_i v0 r0 hpv
    split at h
    · simp only [Option.some.injEq] at h
      subst h
      have := parseVal_mu _ _ _ _ hpv
      omega
    · simp at h
  · simp at h

/-- Any value `JSON.parse` produces from a string is strictly smaller than
that string is as a `Json` leaf — the measure that makes the walk of
`recursivelyParseJsonStrings` terminate. -/
theorem jsonParseChars_mu_lt (cs : Chars) (v : Json) (h : jsonParseChars cs = some v) :
    mu v < mu (.jstr cs) := by
  have := jsonParseChars_mu cs v h
  simp only [mu]
  omega

/-! ## Tool-argument normalization (src: `antigravity/normalize-tool-args.ts`) -/

/-- The escape-sequence cleanup attempt shared by
`recursivelyParseJsonStrings` and `processEscapeSequencesOnly`: when the
value contains a literal `\n` or `\t` but neither `\"` nor `\\`, parse it
as a JSON string literal after escaping every raw `"`; `some` on success
(the source also checks that the parse produced a string, which is always
true of a quoted literal), `none` when the heuristic does not apply or the
parse throws. -/
def escAttempt (s : Chars) : Option Chars :=
  let hasCtl := hasSubstr s ['\\', 'n'] || hasSubstr s ['\\', 't']
  let hasInt := hasSubstr s ['\\', '"'] || hasSubstr s ['\\', '\\']
  if hasCtl && !hasInt then
    match jsonParseChars ('"' :: (escapeQuotes s ++ ['"'])) with
    | some (.jstr u) => some u
    | _ => none
  else none

theorem take_trim_length_le (s : Chars) (n : Nat) :
    ((jsTrim s).take n).length ≤ s.length :=
  le_trans (by simpa using List.length_take_le n (jsTrim s)) (jsTrim_length_le s)

mutual
/-- `recursivelyParseJsonStrings`: arrays and objects are walked
recursively; a string first goes through the escape-sequence heuristic,
then — when its trimmed form (the source's `stripped`) is bracketed —
through `JSON.parse` (with the truncated-array/object repair that trims to
the last closing bracket at a positive index), recursing into any parse
result; all other values and all failures return the value unchanged. -/
def recursivelyParseJsonStrings : Json → Json
  | .jnull => .jnull
  | .jbool b => .jbool b
  | .jnum n => .jnum n
  | .jarr xs => .jarr (rpjsList xs)
  | .jobj ms => .jobj (rpjsMembers ms)
  | .jstr s =>
      match _hesc : escAttempt s with
      | some u => .jstr u
      | none =>
          if (jsTrim s).head? = some '[' then
            if (jsTrim s).getLast? = some ']' then
              match hp : jsonParseChars s with
              | some parsed => recursivelyParseJsonStrings parsed
              | none => .jstr s
            else
              match _hli : lastIdxOf (jsTrim s) ']' with
              | some i =>
                  if 0 < i then
                    match hp : jsonParseChars ((jsTrim s).take (i + 1)) with
                    | some parsed => recursivelyParseJsonStrings parsed
                    | none => .jstr s
                  else .jstr s
              | none => .jstr s
          else if (jsTrim s).head? = some '{' then
            if (jsTrim s).getLast? = some '}' then
              match hp : jsonParseChars s with
              | some parsed => recursivelyParseJsonStrings parsed
              | none => .jstr s
            else
              match _hli : lastIdxOf (jsTrim s) '}' with
              | some i =>
                  if 0 < i then
                    match hp : jsonParseChars ((jsTrim s).take (i + 1)) with
                    | some parsed => recursivelyParseJsonStrings parsed
                    | none => .jstr s
                  else .jstr s
              | none => .jstr s
          else .jstr s
termination_by v => (mu v, 0)
decreasing_by
  · apply Prod.Lex.left
    simp [mu]
  · apply Prod.Lex.left
    simp [mu]
  · apply Prod.Lex.left
    exact jsonParseChars_mu_lt _ _ hp
  · apply Prod.Lex.left
    have h1 := jsonParseChars_mu _ _ hp
    have h2 := take_trim_length_le s (i + 1)
    simp only [mu]
    omega
  · apply Prod.Lex.left
    exact jsonParseChars_mu_lt _ _ hp
  · apply Prod.Lex.left
    have h1 := jsonParseChars_mu _ _ hp
    have h2 := take_trim_length_le s (i + 1)
    simp only [mu]
    omega

def rpjsList : List Json → List Json
  | [] => []
  | x :: xs => recursivelyParseJsonStrings x :: rpjsList xs
termination_by xs => (muList xs, 1)
decreasing_by
  · apply Prod.Lex.right'
    · simp [muList]
    · omega
  · apply Prod.Lex.left
    have := mu_pos x
    simp [muList]
    omega

def rpjsMembers : List (Chars × Json) → List (Chars × Json)
  | [] => []
  | p :: ps => (p.1, recursivelyParseJsonStrings p.2) :: rpjsMembers ps
termination_by ms => (muMembers ms, 1)
decreasing_by
  · apply Prod.Lex.right'
    · simp [muMembers]
    · omega
  · apply Prod.Lex.left
    have := mu_pos p.2
    simp [muMembers]
    omega
end

/-- `processEscapeSequencesOnly`: escape-sequence cleanup for strings (same
heuristic and parse as the cleanup branch of `recursivelyParseJsonStrings`)
and identity on every other value. -/
def processEscapeSequencesOnly : Json → Json
  | .jstr s =>
      match escAttempt s with
      | some u => .jstr u
      | none => .jstr s
  | v => v

/-- The per-argument branch of `normalizeToolCallArgs`: declared type
`string` gets cleanup only; a string value whose declared type is `array`
or `object` gets `JSON.parse` with cleanup as fallback; everything else —
including an unknown declared type — gets cleanup. -/
def normalizeArgValue (expectedType : Option Chars) (value : Json) : Json :=
  if expectedType = some ("string".data) then processEscapeSequencesOnly value
  else
    match value with
    | .jstr s =>
        if expectedType = some ("array".data) ∨ expectedType = some ("object".data) then
          match jsonParseChars s with
          | some p => p
          | none => processEscapeSequencesOnly (.jstr s)
        else processEscapeSequencesOnly (.jstr s)
    | v => processEscapeSequencesOnly v

/-- Index/value entries of an array, as `Object.entries` returns them
(JavaScript arrays pass the `typeof args === 'object'` guard). -/
def enumEntriesFrom (i : Nat) : List Json → List (Chars × Json)
  | [] => []
  | x :: rest => ((Nat.repr i).data, x) :: enumEntriesFrom (i + 1) rest

/-- `normalizeToolCallArgs`: primitives and `null` are returned unchanged
(the `!args || typeof args !== 'object'` guard); an object's entries are
rebuilt with `normalizeArgValue` applied per key, the declared type coming
from the tool-schema cache (`getParamType toolName key`), passed here as
the function `paramTy`. -/
def normalizeToolCallArgs (paramTy : Chars → Chars → Option Chars) (toolName : Chars)
    (args : Json) : Json :=
  match args with
  | .jobj entries =>
      .jobj (entries.foldl
        (fun acc p => insertPair acc p.1 (normalizeArgValue (paramTy toolName p.1) p.2)) [])
  | .jarr xs =>
      .jobj ((enumEntriesFrom 0 xs).foldl
        (fun acc p => insertPair acc p.1 (normalizeArgValue (paramTy toolName p.1) p.2)) [])
  | v => v

/-! ### Spec-side formulations for the cleanup claim -/

/-- The spec's trigger condition for escape-sequence cleanup: a literal
`\n` or `\t` occurs, and neither `\"` nor `\\` does. -/
def escCondition (s : Chars) : Bool :=
  (hasSubstr s ['\\', 'n'] || hasSubstr s ['\\', 't']) &&
  !(hasSubstr s ['\\', '"'] || hasSubstr s ['\\', '\\'])

/-- The JSON-string-literal unescaping of a string: wrap it in quotes and
`JSON.parse` it; undefined when that is not a valid string literal. -/
def jsonStringLiteralUnescape (s : Chars) : Option Chars :=
  match jsonParseChars ('"' :: s ++ ['"']) with
  | some (.jstr u) => some u
  | _ => none

/-- The cleanup behaviour as the corrected claim words it: when the
trigger condition holds and the quote-escaped value unescapes as a JSON
string literal, return the unescaping; otherwise return the value
unchanged. -/
def cleanupSpec : Json → Json
  | .jstr s =>
      if escCondition s then
        match jsonStringLiteralUnescape (escapeQuotes s) with
        | some u => .jstr u
        | none => .jstr s
      else .jstr s
  | v => v

/-! ### Recursion-depth instrumentation of the walk -/

mutual
/-- The recursion depth of `recursivelyParseJsonStrings` on a value: one
for the call itself plus the deepest recursive call it makes (same branch
structure as the function). -/
def rpjsDepth : Json → Nat
  | .jnull => 1
  | .jbool _ => 1
  | .jnum _ => 1
  | .jarr xs => 1 + rpjsDepthList xs
  | .jobj ms => 1 + rpjsDepthMembers ms
  | .jstr s =>
      match escAttempt s with
      | some _ => 1
      | none =>
          if (jsTrim s).head? = some '[' then
            if (jsTrim s).getLast? = some ']' then
              match hp : jsonParseChars s with
              | some parsed => 1 + rpjsDepth parsed
              | none => 1
            else
              match lastIdxOf (jsTrim s) ']' with
              | some i =>
                  if 0 < i then
                    match hp : jsonParseChars ((jsTrim s).take (i + 1)) with
                    | some parsed => 1 + rpjsDepth parsed
                    | none => 1
                  else 1
              | none => 1
          else if (jsTrim s).head? = some '{' then
            if (jsTrim s).getLast? = some '}' then
              match hp : jsonParseChars s with
              | some parsed => 1 + rpjsDepth parsed
              | none => 1
            else
              match lastIdxOf (jsTrim s) '}' with
              | some i =>
                  if 0 < i then
                    match hp : jsonParseChars ((jsTrim s).take (i + 1)) with
                    | some parsed => 1 + rpjsDepth parsed
                    | none => 1
                  else 1
              | none => 1
          else 1
termination_by v => (mu v, 0)
decreasing_by
  · apply Prod.Lex.left
    simp [mu]
  · apply Prod.Lex.left
    simp [mu]
  · apply Prod.Lex.left
    exact jsonParseChars_mu_lt _ _ hp
  · apply Prod.Lex.left
    have h1 := jsonParseChars_mu _ _ hp
    have h2 := take_trim_length_le s (i + 1)
    simp only [mu]
    omega
  · apply Prod.Lex.left
    exact jsonParseChars_mu_lt _ _ hp
  · apply Prod.Lex.left
    have h1 := jsonParseChars_mu _ _ hp
    have h2 := take_trim_length_le s (i + 1)
    simp only [mu]
    omega

def rpjsDepthList : List Json → Nat
  | [] => 0
  | x :: xs => max (rpjsDepth x) (rpjsDepthList xs)
termination_by xs => (muList xs, 1)
decreasing_by
  · apply Prod.Lex.right'
    · simp [muList]
    · omega
  · apply Prod.Lex.left
    have := mu_pos x
    simp [muList]
    omega

def rpjsDepthMembers : List (Chars × Json) → Nat
  | [] => 0
  | p :: ps => max (rpjsDepth p.2) (rpjsDepthMembers ps)
termination_by ms => (muMembers ms, 1)
decreasing_by
  · apply Prod.Lex.right'
    · simp [muMembers]
    · omega
  · apply Prod.Lex.left
    have := mu_pos p.2
    simp [muMembers]
    omega
end

/-- Arrays nested `n` deep: the walk recurses once per level. -/
def nestedArr : Nat → Json
  | 0 => .jnull
  | n + 1 => .jarr [nestedArr n]

/-! ## Support lemmas for the claims -/

theorem mapGet_mapSet_self : ∀ (m : List (String × String)) (k v : String),
    mapGet (mapSet m k v) k = some v := by
  intro m k v
  induction m with
  | nil => simp [mapSet, mapGet]
  | cons p rest ih =>
      by_cases h : p.1 = k
      · simp [mapSet, h, mapGet]
      · simp [mapSet, h, mapGet, ih]

theorem runFallbackAux_success :
    ∀ (front : List AttemptOutcome) (streaming : Bool) (le : Option String) (idx : Nat)
      (back : List AttemptOutcome) (o : AttemptOutcome),
      (∀ o' ∈ front, attemptSucceeds streaming o' = false) →
      attemptSucceeds streaming o = true →
      runFallbackAux streaming le idx (front ++ o :: back) = .ok (idx + front.length, o) := by
  intro front
  induction front with
  | nil =>
      intro streaming le idx back o _ ho
      simp [runFallbackAux, ho]
  | cons f fs ih =>
      intro streaming le idx back o hfail ho
      have hf := hfail f (by simp)
      simp only [List.cons_append, runFallbackAux, hf, Bool.false_eq_true, if_false,
        List.append_eq]
      rw [ih streaming _ (idx + 1) back o (fun o' h' => hfail o' (by simp [h'])) ho]
      simp only [List.length_cons]
      congr 2
      omega

theorem runFallbackAux_allFail :
    ∀ (outs : List AttemptOutcome) (streaming : Bool) (le : Option String) (idx : Nat)
      (last : AttemptOutcome),
      (∀ o' ∈ outs, attemptSucceeds streaming o' = false) →
      outs.getLast? = some last →
      runFallbackAux streaming le idx outs
        = .error ("Antigravity request failed: " ++ attemptError last) := by
  intro outs
  induction outs with
  | nil => intro _ _ _ _ _ h; simp at h
  | cons f fs ih =>
      intro streaming le idx last hfail hlast
      have hf := hfail f (by simp)
      simp only [runFallbackAux, hf, Bool.false_eq_true, if_false]
      cases fs with
      | nil =>
          simp only [List.getLast?_singleton, Option.some.injEq] at hlast
          subst hlast
          simp [runFallbackAux]
      | cons g gs =>
          have hlast2 : (g :: gs).getLast? = some last := by
            rw [← hlast]
            simp [List.getLast?_cons_cons]
          exact ih streaming _ (idx + 1) last (fun o' h' => hfail o' (by simp [h'])) hlast2

theorem rpjsDepth_nestedArr : ∀ n : Nat, rpjsDepth (nestedArr n) = n + 1
  | 0 => by rw [nestedArr, rpjsDepth]
  | n + 1 => by
      rw [nestedArr, rpjsDepth, rpjsDepthList, rpjsDepthList, rpjsDepth_nestedArr n]
      omega

/-- When the trimmed string starts with `[` but no trim point recovers a
parse (and the escape heuristic did not fire), the walk returns the string
unchanged. -/
theorem rpjs_unrepaired_unchanged (s : Chars) (hesc : escAttempt s = none)
    (hhead : (jsTrim s).head? = some '[')
    (hlast : ¬((jsTrim s).getLast? = some ']'))
    (hrep : match lastIdxOf (jsTrim s) ']' with
            | some i => 0 < i → jsonParseChars ((jsTrim s).take (i + 1)) = none
            | none => True) :
    recursivelyParseJsonStrings (.jstr s) = .jstr s := by
  rw [recursivelyParseJsonStrings]
  split
  · rename_i u heq
    rw [hesc] at heq
    cases heq
  · rw [if_pos hhead, if_neg hlast]
    split
    · rename_i i hli
      rw [hli] at hrep
      split
      · rename_i hpos
        split
        · rename_i parsed hp
          rw [hrep hpos] at hp
          cases hp
        · rfl
      · rfl
    · rfl

/-- When the trimmed string starts with `{` but no trim point recovers a
parse (and the escape heuristic did not fire), the walk returns the string
unchanged — the object-truncation branch of the source. -/
theorem rpjs_unrepaired_unchanged_obj (s : Chars) (hesc : escAttempt s = none)
    (hhead : (jsTrim s).head? = some '{')
    (hlast : ¬((jsTrim s).getLast? = some '}'))
    (hrep : match lastIdxOf (jsTrim s) '}' with
            | some i => 0 < i → jsonParseChars ((jsTrim s).take (i + 1)) = none
            | none => True) :
    recursivelyParseJsonStrings (.jstr s) = .jstr s := by
  have hnotarr : ¬((jsTrim s).head? = some '[') := by
    rw [hhead]
    decide
  rw [recursivelyParseJsonStrings]
  split
  · rename_i u heq
    rw [hesc] at heq
    cases heq
  · rw [if_neg hnotarr, if_pos hhead, if_neg hlast]
    split
    · rename_i i hli
      rw [hli] at hrep
      split
      · rename_i hpos
        split
        · rename_i parsed hp
          rw [hrep hpos] at hp
          cases hp
        · rfl
      · rfl
    · rfl

/-! ## Claim theorems -/

/-- C3: chunk-boundary independence of the SSE parser — for every input
and every way of splitting it into successive chunks, `parseSseChunks`
yields exactly the events of the whole input delivered as one chunk
(proved for all inputs, well-formed or not). -/
theorem sse_chunk_boundary_independence (chunks : List Chars) :
    parseSseChunks chunks = parseSseChunks [chunks.flatten] := by
  unfold parseSseChunks
  rw [sse_foldl chunks [] [] rfl, sse_foldl [chunks.flatten] [] [] rfl]
  simp

/-- C6 counterexample: the source splits frames at the literal byte pair
`\n\n` with no prior CRLF normalization, so the same frame encoded with
CRLF line endings (boundary `\r\n\r\n`) yields no event at all while the
LF encoding yields one — the claimed CRLF/LF equivalence fails. -/
theorem sse_crlf_counterexample :
    parseSseChunks ["data: a\r\n\r\n".data] = [] ∧
    parseSseChunks ["data: a\n\n".data] = [⟨"a".data, none, none, none⟩] ∧
    parseSseChunks ["data: a\r\n\r\n".data] ≠ parseSseChunks ["data: a\n\n".data] :=
  ⟨by decide, by decide, by decide⟩

/-- C6 amended: the frame boundary is the literal `\n\n`; CRLF line
endings are normalized only within an already-separated frame (lines split
on `\r?\n`), so a frame whose internal lines use CRLF parses identically
to the LF form, while a fully-CRLF-encoded stream (boundary `\r\n\r\n`)
yields no events. -/
theorem sse_boundary_is_lflf_amended :
    (∀ lines : List Chars, (∀ l ∈ lines, ∀ c ∈ l, c ≠ '\n' ∧ c ≠ '\r') →
        splitEventLines (joinWith ['\r', '\n'] lines)
          = splitEventLines (joinWith ['\n'] lines)) ∧
    parseSseChunks ["data: a\r\ndata: b\n\n".data]
      = parseSseChunks ["data: a\ndata: b\n\n".data] ∧
    parseSseChunks ["data: a\r\n\r\n".data] = [] :=
  ⟨splitEventLines_crlf_eq_lf, by decide, by decide⟩

theorem sse_boundary_is_lflf_amended_witness :
    splitEventLines (joinWith ['\r', '\n'] ["data: a".data, "data: b".data])
      = splitEventLines (joinWith ['\n'] ["data: a".data, "data: b".data]) :=
  sse_boundary_is_lflf_amended.1 ["data: a".data, "data: b".data] (by decide)

/-- C10: when the stream ends while unparsed bytes remain after the last
blank-line separator (no further `\n\n` appears in the leftover buffer
plus the trailing bytes), those bytes are discarded: the trailing
unterminated frame is never yielded. -/
theorem sse_trailing_frame_discarded (s t : Chars)
    (h : hasLfLf ((splitFrames s).2 ++ t) = false) :
    parseSseChunks [s ++ t] = parseSseChunks [s] := by
  unfold parseSseChunks
  simp only [List.foldl_cons, List.foldl_nil, sseStep, List.nil_append]
  rw [splitFrames_append s t, splitFrames_no_boundary _ h]
  simp

theorem sse_trailing_frame_discarded_witness :
    hasLfLf ((splitFrames ("data: x\n\n".data)).2 ++ "data: y".data) = false ∧
    parseSseChunks ["data: x\n\n".data ++ "data: y".data]
      = parseSseChunks ["data: x\n\n".data] :=
  ⟨by decide, sse_trailing_frame_discarded ("data: x\n\n".data) ("data: y".data) (by decide)⟩

/-- C7 counterexample: the round-trip is not the identity for every name.
After sanitizing `"1x"` (which records `t_1x ↦ 1x`), sanitizing the
untouched name `"t_1x"` and resolving the result yields `"1x"`, not
`"t_1x"`: the reverse map aliases a legitimate name onto a previously
sanitized one. -/
theorem sanitize_roundtrip_counterexample :
    resolveOriginalToolName
        (sanitizeToolNameForGemini (sanitizeToolNameForGemini [] "1x").2 "t_1x").2
        (sanitizeToolNameForGemini (sanitizeToolNameForGemini [] "1x").2 "t_1x").1
      ≠ "t_1x" := by decide

/-- C7 amended: `resolveOriginalToolName` after `sanitizeToolNameForGemini`
returns the name itself (i) for every name starting with a digit, in any
map state — sanitization prefixes `t_`, records the mapping, and the
reverse lookup recovers the original exactly — and (ii) for every other
name that is not already a key of the sanitized-name map. -/
theorem sanitize_roundtrip_amended :
    (∀ (m : List (String × String)) (name : String), startsWithDigit name = true →
        resolveOriginalToolName (sanitizeToolNameForGemini m name).2
          (sanitizeToolNameForGemini m name).1 = name ∧
        (sanitizeToolNameForGemini m name).1 = "t_" ++ name ∧
        mapGet (sanitizeToolNameForGemini m name).2 ("t_" ++ name) = some name) ∧
    (∀ (m : List (String × String)) (name : String), startsWithDigit name = false →
        mapGet m name = none →
        resolveOriginalToolName (sanitizeToolNameForGemini m name).2
          (sanitizeToolNameForGemini m name).1 = name) := by
  constructor
  · intro m name h
    have hne : ("t_" ++ name : String) ≠ name := by
      intro heq
      have hlen := congrArg String.length heq
      rw [String.length_append] at hlen
      simp only [show ("t_" : String).length = 2 from rfl] at hlen
      omega
    have hs : sanitizeToolNameForGemini m name
        = ("t_" ++ name, mapSet m ("t_" ++ name) name) := by
      simp only [sanitizeToolNameForGemini, h, if_true]
      rw [if_pos hne]
    rw [hs]
    refine ⟨?_, rfl, mapGet_mapSet_self m _ name⟩
    simp only [resolveOriginalToolName, mapGet_mapSet_self m _ name, Option.getD_some]
  · intro m name h hget
    have hs : sanitizeToolNameForGemini m name = (name, m) := by
      simp only [sanitizeToolNameForGemini, h, if_false, Bool.false_eq_true]
      simp
    rw [hs]
    simp only [resolveOriginalToolName, hget, Option.getD_none]

theorem sanitize_roundtrip_amended_witness :
    startsWithDigit "1x" = true ∧
    resolveOriginalToolName (sanitizeToolNameForGemini [] "1x").2
      (sanitizeToolNameForGemini [] "1x").1 = "1x" ∧
    startsWithDigit "ab" = false ∧
    resolveOriginalToolName (sanitizeToolNameForGemini [] "ab").2
      (sanitizeToolNameForGemini [] "ab").1 = "ab" :=
  ⟨by decide, (sanitize_roundtrip_amended.1 [] "1x" (by decide)).1, by decide,
    sanitize_roundtrip_amended.2 [] "ab" (by decide) rfl⟩

/-- C8 counterexample: a signature recorded under session id `"a:b"` with
reasoning text `"c"` is returned by a lookup under the distinct session id
`"a"` with text `"b:c"` — the colon-joined key string (and hence its
SHA-256 digest in the source) coincides, so distinct session ids do not
guarantee isolation. -/
theorem signature_cache_counterexample :
    getCachedThoughtSignature
        (cacheThoughtSignature [] .claude "a:b" "c" "sig-A") .claude "a" "b:c"
      = some "sig-A" ∧ ("a:b" : String) ≠ "a" :=
  ⟨by decide, by decide⟩

/-- C8 amended: recording then looking up with the same family, session and
reasoning text returns the recorded signature (text is normalized by trim
only); a lookup whose composite key string `family:session:trimmed-text`
differs from every recorded one returns `undefined` — but distinct session
ids alone do not guarantee distinct keys, because the components are joined
with `:` without escaping. -/
theorem signature_cache_amended :
    (∀ (cache : List (String × String)) (f : AntigravityModelFamily) (s t sig : String),
        getCachedThoughtSignature (cacheThoughtSignature cache f s t sig) f s t = some sig) ∧
    (∀ (f : AntigravityModelFamily) (s t sig : String) (f' : AntigravityModelFamily)
        (s' t' : String),
        getSignatureKey f' s' t' ≠ getSignatureKey f s t →
        getCachedThoughtSignature (cacheThoughtSignature [] f s t sig) f' s' t' = none) := by
  constructor
  · intro cache f s t sig
    simp only [getCachedThoughtSignature, cacheThoughtSignature, mapGet_mapSet_self]
  · intro f s t sig f' s' t' hne
    show mapGet (mapSet [] (getSignatureKey f s t) sig) (getSignatureKey f' s' t') = none
    simp only [mapSet, mapGet]
    rw [if_neg (fun heq => hne heq.symm)]

theorem signature_cache_amended_witness :
    getCachedThoughtSignature
        (cacheThoughtSignature [] .claude "s1" "thinking..." "sig-A") .claude "s1" "thinking..."
      = some "sig-A" ∧
    getCachedThoughtSignature
        (cacheThoughtSignature [] .claude "s1" "thinking..." "sig-A") .claude "s2" "thinking..."
      = none :=
  ⟨signature_cache_amended.1 [] .claude "s1" "thinking..." "sig-A",
   signature_cache_amended.2 .claude "s1" "thinking..." "sig-A" .claude "s2" "thinking..."
     (by decide)⟩

/-- C2 counterexample: a thinking setting that is enabled (not disabled,
effort not `none`) but carries no `effort` — only a `budgetTokens` — emits,
under the level representation, a `thinkingConfig` with *neither*
`thinkingLevel` nor `thinkingBudget`: `thinkingLevel` is only set when an
effort is present, and `thinkingBudget` is deleted by the flag, so
"exactly one of the keys" fails. -/
theorem thinking_config_counterexample :
    buildThinkingConfigForAntigravity
        (some ⟨some "enabled", none, some 1000⟩) true
      = some ⟨true, none, none⟩ ∧
    (none : Option String).isSome = false ∧ (none : Option Int).isSome = false :=
  ⟨rfl, rfl, rfl⟩

/-- C2 amended: the emitted `thinkingConfig` never carries both keys.
Under the budget representation it carries exactly `thinkingBudget`
(0 when thinking is disabled or effort is `none`, the explicit
`budgetTokens` when set, `-1` otherwise); under the level representation
it carries `thinkingLevel` when thinking is disabled (level `minimal`) or
an effort is set (with `xhigh ↦ high`, `none ↦ minimal`), and *neither*
key when an enabled setting has no effort. -/
theorem thinking_config_amended :
    (∀ (th : ThinkingSetting) (u : Bool) (cfg : ThinkingConfigOut),
        buildThinkingConfigForAntigravity (some th) u = some cfg →
          (¬(cfg.thinkingLevel.isSome = true ∧ cfg.thinkingBudget.isSome = true)) ∧
          (u = false → cfg.thinkingLevel = none ∧ cfg.thinkingBudget.isSome = true) ∧
          (u = false → (th.ttype = some "disabled" ∨ th.effort = some .eNone) →
              cfg.thinkingBudget = some 0) ∧
          (u = false → ¬(th.ttype = some "disabled" ∨ th.effort = some .eNone) →
              cfg.thinkingBudget = some (th.budgetTokens.getD (-1))) ∧
          (u = true → cfg.thinkingBudget = none) ∧
          (u = true → (th.ttype = some "disabled" ∨ th.effort = some .eNone) →
              cfg.thinkingLevel = some "minimal") ∧
          (u = true → ¬(th.ttype = some "disabled" ∨ th.effort = some .eNone) →
              cfg.thinkingLevel = th.effort.map mapThinkingEffortToLevelString)) ∧
    mapThinkingEffortToLevelString .eXhigh = "high" ∧
    mapThinkingEffortToLevelString .eNone = "minimal" := by
  refine ⟨?_, rfl, rfl⟩
  intro th u cfg hb
  simp only [buildThinkingConfigForAntigravity] at hb
  by_cases hd : th.ttype = some "disabled" ∨ th.effort = some .eNone
  · rw [if_pos hd] at hb
    cases u
    · simp only [Option.some.injEq, if_false, Bool.false_eq_true] at hb
      subst hb
      simp [hd]
    · simp only [Option.some.injEq, if_true] at hb
      subst hb
      simp [hd]
  · rw [if_neg hd] at hb
    cases u
    · simp only [Option.some.injEq, if_false, Bool.false_eq_true] at hb
      subst hb
      simp [hd]
    · simp only [Option.some.injEq, if_true] at hb
      subst hb
      simp [hd]

theorem thinking_config_amended_witness :
    ¬((some "high" : Option String).isSome = true ∧ (none : Option Int).isSome = true) :=
  (thinking_config_amended.1 ⟨none, some .eXhigh, none⟩ true ⟨true, some "high", none⟩ rfl).1

/-- C4: the fallback loop attempts the configured endpoints strictly in
order and stops at the first attempt accepted by `attemptSucceeds` (HTTP
2xx, with a present body for streaming calls); each failed attempt records
its status/message into `lastError`, and when every attempt fails the call
fails with the last recorded error. -/
theorem endpoint_fallback_first_success :
    (∀ (streaming : Bool) (front back : List AttemptOutcome) (o : AttemptOutcome),
        (∀ o' ∈ front, attemptSucceeds streaming o' = false) →
        attemptSucceeds streaming o = true →
        runFallback streaming (front ++ o :: back) = .ok (front.length, o)) ∧
    (∀ (streaming : Bool) (outs : List AttemptOutcome) (last : AttemptOutcome),
        (∀ o' ∈ outs, attemptSucceeds streaming o' = false) →
        outs.getLast? = some last →
        runFallback streaming outs
          = .error ("Antigravity request failed: " ++ attemptError last)) := by
  constructor
  · intro streaming front back o hfail ho
    have := runFallbackAux_success front streaming none 0 back o hfail ho
    simpa [runFallback] using this
  · intro streaming outs last hfail hlast
    exact runFallbackAux_allFail outs streaming none 0 last hfail hlast

theorem endpoint_fallback_first_success_witness :
    runFallback true
        [.resp 500 true "server error", .thrown "network down", .resp 200 true ""]
      = .ok (2, .resp 200 true "") ∧
    runFallback false [.resp 404 true "not found", .thrown "boom"]
      = .error ("Antigravity request failed: " ++ "boom") :=
  ⟨endpoint_fallback_first_success.1 true
      [.resp 500 true "server error", .thrown "network down"] [] (.resp 200 true "")
      (by decide) (by decide),
   endpoint_fallback_first_success.2 false [.resp 404 true "not found", .thrown "boom"]
      (.thrown "boom") (by decide) rfl⟩

/-- Bridge: the cleanup attempt is the spec-side condition followed by the
JSON-string-literal unescaping of the quote-escaped value. -/
theorem escAttempt_eq (s : Chars) :
    escAttempt s
      = if escCondition s then jsonStringLiteralUnescape (escapeQuotes s) else none := rfl

/-- C1 counterexample: the string `\n\q` (backslash-n backslash-q)
satisfies the cleanup trigger condition — it contains a literal `\n` and
neither `\"` nor `\\` — yet has no JSON-string-literal unescaping (`\q` is
an invalid escape), and the cleanup returns it unchanged rather than
"the JSON-string-literal unescaping", refuting the claimed
"exactly when". -/
theorem cleanup_exactly_when_counterexample :
    escCondition ['\\', 'n', '\\', 'q'] = true ∧
    jsonStringLiteralUnescape ['\\', 'n', '\\', 'q'] = none ∧
    processEscapeSequencesOnly (.jstr ['\\', 'n', '\\', 'q'])
      = .jstr ['\\', 'n', '\\', 'q'] :=
  ⟨by decide, by decide, by decide⟩

/-- C1 amended: `normalizeToolCallArgs` rebuilds the arguments object by
applying the per-argument mapping `normalizeArgValue` to each entry under
its cached declared type; per named argument, a declared `array`/`object`
type with a string value yields `JSON.parse` of the value with cleanup as
the fallback; a declared `string` type yields cleanup only; an unknown
declared type yields cleanup; and cleanup returns the JSON-string-literal
unescaping of the quote-escaped value exactly when the trigger condition
holds *and that unescaping exists* (`cleanupSpec`), the value unchanged
otherwise. -/
theorem normalize_tool_args_amended :
    (∀ (paramTy : Chars → Chars → Option Chars) (toolName : Chars)
        (entries : List (Chars × Json)),
        normalizeToolCallArgs paramTy toolName (.jobj entries)
          = .jobj (entries.foldl
              (fun acc p =>
                insertPair acc p.1 (normalizeArgValue (paramTy toolName p.1) p.2)) [])) ∧
    (∀ (ty : Option Chars) (s : Chars),
        ty = some ("array".data) ∨ ty = some ("object".data) →
        normalizeArgValue ty (.jstr s)
          = (jsonParseChars s).getD (processEscapeSequencesOnly (.jstr s))) ∧
    (∀ v : Json, normalizeArgValue (some ("string".data)) v = processEscapeSequencesOnly v) ∧
    (∀ v : Json, normalizeArgValue none v = processEscapeSequencesOnly v) ∧
    (∀ v : Json, processEscapeSequencesOnly v = cleanupSpec v) := by
  have hredjstr : ∀ (ty : Option Chars) (s : Chars),
      normalizeArgValue ty (.jstr s)
        = if ty = some ("string".data) then processEscapeSequencesOnly (.jstr s)
          else if ty = some ("array".data) ∨ ty = some ("object".data) then
            (match jsonParseChars s with
             | some p => p
             | none => processEscapeSequencesOnly (.jstr s))
          else processEscapeSequencesOnly (.jstr s) := fun ty s => rfl
  refine ⟨fun _ _ _ => rfl, ?_, ?_, ?_, ?_⟩
  · intro ty s hty
    have hne : ty ≠ some ("string".data) := by
      rcases hty with h | h <;> subst h <;> decide
    rw [hredjstr, if_neg hne, if_pos hty]
    rcases hpc : jsonParseChars s <;> simp [hpc]
  · intro v
    unfold normalizeArgValue
    rw [if_pos rfl]
  · intro v
    cases v <;> simp [normalizeArgValue]
  · intro v
    cases v <;> try rfl
    rename_i s
    show (match escAttempt s with
          | some u => Json.jstr u
          | none => Json.jstr s) = cleanupSpec (.jstr s)
    rw [escAttempt_eq]
    by_cases hc : escCondition s
    · simp only [cleanupSpec, if_pos hc]
    · simp only [cleanupSpec, if_neg hc]

theorem normalize_tool_args_amended_witness :
    normalizeArgValue (some ("array".data)) (.jstr "[1,2,3]".data)
      = (jsonParseChars ("[1,2,3]".data)).getD
          (processEscapeSequencesOnly (.jstr "[1,2,3]".data)) ∧
    (jsonParseChars ("[1,2,3]".data)).getD
          (processEscapeSequencesOnly (.jstr "[1,2,3]".data))
      = .jarr [.jnum ['1'], .jnum ['2'], .jnum ['3']] :=
  ⟨normalize_tool_args_amended.2.1 (some ("array".data)) ("[1,2,3]".data) (Or.inl rfl),
   by decide⟩

/-- C5 counterexample: the input `[{"a":1},{"b":2` contains no `]` at all,
so the repair (`lastIndexOf(']')`) finds no trim point and the walk
returns the string unchanged — it is *not* repaired to parse as the array
`[{"a":1}]` as claimed. -/
theorem truncation_repair_counterexample :
    recursivelyParseJsonStrings (.jstr "[\x7b\"a\":1\x7d,\x7b\"b\":2".data)
      = .jstr "[\x7b\"a\":1\x7d,\x7b\"b\":2".data ∧
    Json.jstr "[\x7b\"a\":1\x7d,\x7b\"b\":2".data
      ≠ .jarr [.jobj [("a".data, .jnum ['1'])]] := by
  constructor
  · rw [recursivelyParseJsonStrings]
    rfl
  · exact fun h => nomatch h

/-- C5 amended: `[{"a":1},{"b":2` has no `]`, hence no trim point, and is
returned unmodified; the repair trims to the last closing bracket present
when one exists at a positive index — `[{"a":1}],{"b":2` is trimmed to
`[{"a":1}]` and parses as that array, and likewise the truncated object
`{"a":1},{"b` is trimmed to `{"a":1}` and parses as that object; and
whenever no trim point recovers a parse — for array-leading and
object-leading strings alike — the original string is returned
unmodified. -/
theorem truncation_repair_amended :
    recursivelyParseJsonStrings (.jstr "[\x7b\"a\":1\x7d,\x7b\"b\":2".data)
      = .jstr "[\x7b\"a\":1\x7d,\x7b\"b\":2".data ∧
    recursivelyParseJsonStrings (.jstr "[\x7b\"a\":1\x7d],\x7b\"b\":2".data)
      = .jarr [.jobj [("a".data, .jnum ['1'])]] ∧
    recursivelyParseJsonStrings (.jstr "\x7b\"a\":1\x7d,\x7b\"b".data)
      = .jobj [("a".data, .jnum ['1'])] ∧
    (∀ s : Chars, escAttempt s = none → (jsTrim s).head? = some '[' →
        ¬((jsTrim s).getLast? = some ']') →
        (match lastIdxOf (jsTrim s) ']' with
         | some i => 0 < i → jsonParseChars ((jsTrim s).take (i + 1)) = none
         | none => True) →
        recursivelyParseJsonStrings (.jstr s) = .jstr s) ∧
    (∀ s : Chars, escAttempt s = none → (jsTrim s).head? = some '{' →
        ¬((jsTrim s).getLast? = some '}') →
        (match lastIdxOf (jsTrim s) '}' with
         | some i => 0 < i → jsonParseChars ((jsTrim s).take (i + 1)) = none
         | none => True) →
        recursivelyParseJsonStrings (.jstr s) = .jstr s) := by
  refine ⟨?_, ?_, ?_, rpjs_unrepaired_unchanged, rpjs_unrepaired_unchanged_obj⟩
  · rw [recursivelyParseJsonStrings]
    rfl
  · rw [recursivelyParseJsonStrings]
    split
    · rename_i u heq
      rw [show escAttempt ("[\x7b\"a\":1\x7d],\x7b\"b\":2".data) = none from rfl] at heq
      cases heq
    · rw [if_pos (show (jsTrim ("[\x7b\"a\":1\x7d],\x7b\"b\":2".data)).head? = some '['
            from rfl),
          if_neg (show ¬((jsTrim ("[\x7b\"a\":1\x7d],\x7b\"b\":2".data)).getLast?
            = some ']') from by decide)]
      split
      · rename_i i hli
        rw [show lastIdxOf (jsTrim ("[\x7b\"a\":1\x7d],\x7b\"b\":2".data)) ']' = some 8
              from rfl] at hli
        injection hli with hi
        subst hi
        rw [if_pos (show (0 : Nat) < 8 from by decide)]
        split
        · rename_i parsed hp
          rw [show jsonParseChars
                ((jsTrim ("[\x7b\"a\":1\x7d],\x7b\"b\":2".data)).take (8 + 1))
              = some (.jarr [.jobj [("a".data, .jnum ['1'])]]) from rfl] at hp
          injection hp with hpv
          subst hpv
          simp only [recursivelyParseJsonStrings, rpjsList, rpjsMembers]
        · rename_i hp
          rw [show jsonParseChars
                ((jsTrim ("[\x7b\"a\":1\x7d],\x7b\"b\":2".data)).take (8 + 1))
              = some (.jarr [.jobj [("a".data, .jnum ['1'])]]) from rfl] at hp
          cases hp
      · rename_i hli
        rw [show lastIdxOf (jsTrim ("[\x7b\"a\":1\x7d],\x7b\"b\":2".data)) ']' = some 8
              from rfl] at hli
        cases hli
  · rw [recursivelyParseJsonStrings]
    split
    · rename_i u heq
      rw [show escAttempt ("\x7b\"a\":1\x7d,\x7b\"b".data) = none from rfl] at heq
      cases heq
    · rw [if_neg (show ¬((jsTrim ("\x7b\"a\":1\x7d,\x7b\"b".data)).head? = some '[')
            from by decide),
          if_pos (show (jsTrim ("\x7b\"a\":1\x7d,\x7b\"b".data)).head? = some '{'
            from rfl),
          if_neg (show ¬((jsTrim ("\x7b\"a\":1\x7d,\x7b\"b".data)).getLast?
            = some '}') from by decide)]
      split
      · rename_i i hli
        rw [show lastIdxOf (jsTrim ("\x7b\"a\":1\x7d,\x7b\"b".data)) '}' = some 6
              from rfl] at hli
        injection hli with hi
        subst hi
        rw [if_pos (show (0 : Nat) < 6 from by decide)]
        split
        · rename_i parsed hp
          rw [show jsonParseChars
                ((jsTrim ("\x7b\"a\":1\x7d,\x7b\"b".data)).take (6 + 1))
              = some (.jobj [("a".data, .jnum ['1'])]) from rfl] at hp
          injection hp with hpv
          subst hpv
          simp only [recursivelyParseJsonStrings, rpjsList, rpjsMembers]
        · rename_i hp
          rw [show jsonParseChars
                ((jsTrim ("\x7b\"a\":1\x7d,\x7b\"b".data)).take (6 + 1))
              = some (.jobj [("a".data, .jnum ['1'])]) from rfl] at hp
          cases hp
      · rename_i hli
        rw [show lastIdxOf (jsTrim ("\x7b\"a\":1\x7d,\x7b\"b".data)) '}' = some 6
              from rfl] at hli
        cases hli

theorem truncation_repair_amended_witness :
    escAttempt ("[\x7b\"a\":1\x7d,\x7b\"b\":2".data) = none ∧
    recursivelyParseJsonStrings (.jstr "[\x7b\"a\":1\x7d,\x7b\"b\":2".data)
      = .jstr "[\x7b\"a\":1\x7d,\x7b\"b\":2".data ∧
    escAttempt ("\x7babc".data) = none ∧
    recursivelyParseJsonStrings (.jstr "\x7babc".data) = .jstr "\x7babc".data :=
  ⟨rfl,
   truncation_repair_amended.2.2.2.1 ("[\x7b\"a\":1\x7d,\x7b\"b\":2".data) rfl rfl
     (by decide) (by exact trivial),
   rfl,
   truncation_repair_amended.2.2.2.2 ("\x7babc".data) rfl rfl
     (by decide) (by exact trivial)⟩

/-- C9 counterexample: the walk of `recursivelyParseJsonStrings` has no
recursion-depth limit — its recursion depth on an array nested `n + 1`
deep is `n + 2`, so no bound `D` covers every input. -/
theorem walk_depth_unbounded_counterexample :
    ¬ ∃ D : Nat, ∀ v : Json, rpjsDepth v ≤ D := by
  rintro ⟨D, hD⟩
  have h := hD (nestedArr D)
  rw [rpjsDepth_nestedArr D] at h
  omega

/-- C9 amended: the walk carries no explicit recursion-depth limit (its
depth grows linearly with input nesting, see the counterexample); it
nevertheless terminates on every (finite) input because each recursive
call strictly decreases the measure `mu` — in particular, any value
`JSON.parse` yields from a string is strictly `mu`-smaller than the string
leaf itself. -/
theorem walk_termination_amended :
    (∀ (s : Chars) (v : Json), jsonParseChars s = some v → mu v < mu (.jstr s)) ∧
    (∀ n : Nat, rpjsDepth (nestedArr n) = n + 1) :=
  ⟨jsonParseChars_mu_lt, rpjsDepth_nestedArr⟩

theorem walk_termination_amended_witness :
    jsonParseChars ("[0]".data) = some (.jarr [.jnum ['0']]) ∧
    mu (.jarr [.jnum ['0']]) < mu (.jstr ("[0]".data)) :=
  ⟨by decide, walk_termination_amended.1 ("[0]".data) (.jarr [.jnum ['0']]) (by decide)⟩
